import Mathlib

/-!
Verification of the CNV collapsing core of `collapse_cnvs`.

The program groups copy-number-variant calls (CNVs) per (family, chromosome)
bucket, links two CNVs of equal copy number when a reciprocal-overlap test
passes, extracts connected components of the resulting undirected graph, and
merges each component into a single CNV spanning the union of coordinates.

This file embeds the core functions (`overlap`, `merge_cnvs`, and the
clustering performed inside `group_cnvs`) as executable Lean definitions and
proves the specification's claims about them. Python floats are modelled as
rationals, Python ints as `Int`, the fatal empty-cluster assertion in
`merge_cnvs` as an `Option` result, and the per-bucket CNV set as a
duplicate-free list. The connected-component extraction delegated to the
networkx library is modelled from the spec as an incremental
merge-of-linked-clusters fold, and the theorems below prove it computes
exactly the connected components of the overlap graph.
-/

/-- A CNV record: chromosome, 1-based inclusive start and end coordinates, and
copy number. Mirrors the `CNV` namedtuple of `collapse_cnvs.py`. -/
structure CNV where
  chrom : String
  start : Int
  «end» : Int
  copynumber : Int
  deriving DecidableEq, Repr

/-- The default `--overlap` threshold (`DEFAULT_OVERLAP = 0.7`). -/
def DEFAULT_OVERLAP : ℚ := 7 / 10

/-- Embedding of `overlap(cnv1, cnv2, min_overlap)`: the candidate
intersection must be non-degenerate under a strict `<` test, and then the
inclusive intersection length divided by either CNV's inclusive length must
reach the threshold. -/
def overlap (cnv1 cnv2 : CNV) (min_overlap : ℚ) : Bool :=
  let overlap_start := max cnv1.start cnv2.start
  let overlap_end := min cnv1.«end» cnv2.«end»
  if overlap_start < overlap_end then
    let overlap_size : ℚ := ((overlap_end - overlap_start + 1 : Int) : ℚ)
    let cnv1_size : ℚ := ((cnv1.«end» - cnv1.start + 1 : Int) : ℚ)
    let cnv2_size : ℚ := ((cnv2.«end» - cnv2.start + 1 : Int) : ℚ)
    decide (overlap_size / cnv1_size ≥ min_overlap ∨
            overlap_size / cnv2_size ≥ min_overlap)
  else
    false

/-- Embedding of `merge_cnvs(cnvs)`: `none` models the fatal
`assert(len(cnvs) > 0)` on an empty cluster; otherwise the result takes the
minimum start, the maximum end, and the chromosome and copy number of the
first member iterated (here: the head of the list). -/
def merge_cnvs (cnvs : List CNV) : Option CNV :=
  match cnvs with
  | [] => none
  | example_cnv :: rest =>
    some { chrom := example_cnv.chrom,
           start := (rest.map CNV.start).foldl min example_cnv.start,
           «end» := (rest.map fun c => c.«end»).foldl max example_cnv.«end»,
           copynumber := example_cnv.copynumber }

/-- The edge test of `group_cnvs`: equal copy number and passing `overlap`. -/
def edge (min_overlap : ℚ) (cnv1 cnv2 : CNV) : Bool :=
  (cnv1.copynumber == cnv2.copynumber) && overlap cnv1 cnv2 min_overlap

/-- Undirected adjacency: the edge test in either orientation, since
`itertools.combinations` presents each unordered pair once in an unspecified
order and `networkx` edges are undirected. -/
def Adj (min_overlap : ℚ) (u v : CNV) : Bool :=
  edge min_overlap u v || edge min_overlap v u

/-- Modelled from the spec: one step of the connected-component extraction
that `group_cnvs` delegates to `nx.connected_components` (the library is not
part of this repository). Adding node `v`, every existing cluster containing
a neighbour of `v` is merged with `v` into one cluster; the remaining
clusters are untouched. -/
def addNode (f : ℚ) (v : CNV) (cs : List (List CNV)) : List (List CNV) :=
  (v :: (cs.filter fun cl => cl.any fun u => Adj f v u).flatten) ::
    cs.filter fun cl => !cl.any fun u => Adj f v u

/-- Modelled from the spec: the connected components of the overlap graph of
one (family, chromosome) bucket, computed by folding `addNode` over the
bucket's CNVs. -/
def components (f : ℚ) (cnvs : List CNV) : List (List CNV) :=
  cnvs.foldl (fun cs v => addNode f v cs) []

/-- The per-bucket body of `group_cnvs`: each non-empty connected component
is emitted together with its merged CNV. -/
def group_bucket (f : ℚ) (cnvs : List CNV) : List (Option CNV × List CNV) :=
  ((components f cnvs).filter fun cl => decide (0 < cl.length)).map
    fun cl => (merge_cnvs cl, cl)

/-- One edge of the overlap graph whose nodes are the members of `nodes`. -/
def Step (f : ℚ) (nodes : List CNV) (u v : CNV) : Prop :=
  u ∈ nodes ∧ v ∈ nodes ∧ Adj f u v = true

/-- Graph connectivity: a path of overlap edges inside `nodes`. -/
def Connected (f : ℚ) (nodes : List CNV) : CNV → CNV → Prop :=
  Relation.ReflTransGen (Step f nodes)

/-! ### Helper lemmas about folded minima and maxima -/

theorem foldl_min_le_init {α : Type} [LinearOrder α] (l : List α) (a : α) :
    l.foldl min a ≤ a := by
  induction l generalizing a with
  | nil => exact le_refl a
  | cons x xs ih =>
    rw [List.foldl_cons]
    exact le_trans (ih (min a x)) (min_le_left a x)

theorem foldl_min_le_mem {α : Type} [LinearOrder α] {l : List α} {x : α} (hx : x ∈ l) :
    ∀ a, l.foldl min a ≤ x := by
  induction l with
  | nil => cases hx
  | cons y ys ih =>
    intro a
    rw [List.foldl_cons]
    rcases List.mem_cons.mp hx with rfl | h
    · exact le_trans (foldl_min_le_init ys (min a x)) (min_le_right a x)
    · exact ih h (min a y)

theorem foldl_min_mem {α : Type} [LinearOrder α] (l : List α) :
    ∀ a, l.foldl min a = a ∨ l.foldl min a ∈ l := by
  induction l with
  | nil => exact fun a => Or.inl rfl
  | cons x xs ih =>
    intro a
    rw [List.foldl_cons]
    rcases ih (min a x) with h | h
    · rcases le_total a x with hax | hxa
      · rw [h, min_eq_left hax]
        exact Or.inl rfl
      · rw [h, min_eq_right hxa]
        exact Or.inr (List.mem_cons_self x xs)
    · exact Or.inr (List.mem_cons_of_mem x h)

theorem init_le_foldl_max {α : Type} [LinearOrder α] (l : List α) (a : α) :
    a ≤ l.foldl max a := by
  induction l generalizing a with
  | nil => exact le_refl a
  | cons x xs ih =>
    rw [List.foldl_cons]
    exact le_trans (le_max_left a x) (ih (max a x))

theorem mem_le_foldl_max {α : Type} [LinearOrder α] {l : List α} {x : α} (hx : x ∈ l) :
    ∀ a, x ≤ l.foldl max a := by
  induction l with
  | nil => cases hx
  | cons y ys ih =>
    intro a
    rw [List.foldl_cons]
    rcases List.mem_cons.mp hx with rfl | h
    · exact le_trans (le_max_right a x) (init_le_foldl_max ys (max a x))
    · exact ih h (max a y)

theorem foldl_max_mem {α : Type} [LinearOrder α] (l : List α) :
    ∀ a, l.foldl max a = a ∨ l.foldl max a ∈ l := by
  induction l with
  | nil => exact fun a => Or.inl rfl
  | cons x xs ih =>
    intro a
    rw [List.foldl_cons]
    rcases ih (max a x) with h | h
    · rcases le_total x a with hxa | hax
      · rw [h, max_eq_left hxa]
        exact Or.inl rfl
      · rw [h, max_eq_right hax]
        exact Or.inr (List.mem_cons_self x xs)
    · exact Or.inr (List.mem_cons_of_mem x h)

/-! ### The overlap predicate -/

/-- C2: `overlap a b f` holds iff the intersection is non-degenerate under the
strict test `max(a.start, b.start) < min(a.end, b.end)` and the inclusive
intersection length reaches fraction `f` of either CNV's inclusive length;
the comparison is inclusive, so `(chr1,1,10,2)` and `(chr1,1,7,2)` overlap at
threshold `7/10`. -/
theorem overlap_characterization (a b : CNV) (f : ℚ)
    (ha : a.start ≤ a.«end») (hb : b.start ≤ b.«end») :
    (overlap a b f = true ↔
      (max a.start b.start < min a.«end» b.«end» ∧
        (((min a.«end» b.«end» - max a.start b.start + 1 : Int) : ℚ) /
            ((a.«end» - a.start + 1 : Int) : ℚ) ≥ f ∨
         ((min a.«end» b.«end» - max a.start b.start + 1 : Int) : ℚ) /
            ((b.«end» - b.start + 1 : Int) : ℚ) ≥ f))) ∧
    overlap ⟨"chr1", 1, 10, 2⟩ ⟨"chr1", 1, 7, 2⟩ (7 / 10) = true := by
  refine ⟨?_, by norm_num [overlap]⟩
  simp only [overlap]
  by_cases h : max a.start b.start < min a.«end» b.«end»
  · simp [h]
  · simp [h]

/-- Witness for C2 at `a = (chr1,1,10,2)`, `b = (chr1,1,7,2)`, `f = 7/10`. -/
theorem overlap_characterization_witness :
    overlap ⟨"chr1", 1, 10, 2⟩ ⟨"chr1", 1, 7, 2⟩ (7 / 10) = true :=
  (overlap_characterization ⟨"chr1", 1, 10, 2⟩ ⟨"chr1", 1, 7, 2⟩ (7 / 10)
    (by decide) (by decide)).2

/-- C7: the overlap predicate is symmetric in its two CNV arguments. -/
theorem overlap_symm (a b : CNV) (t : ℚ) : overlap a b t = overlap b a t := by
  simp only [overlap]
  rw [max_comm, min_comm]
  by_cases h : max b.start a.start < min b.«end» a.«end»
  · rw [if_pos h, if_pos h]
    exact decide_eq_decide.mpr or_comm
  · rw [if_neg h, if_neg h]

/-- C10: the overlap predicate is antitone in the threshold: lowering
`min_fraction` can only add overlap edges. -/
theorem overlap_antitone (a b : CNV) (t1 t2 : ℚ) (h12 : t1 ≤ t2)
    (h : overlap a b t2 = true) : overlap a b t1 = true := by
  simp only [overlap] at h ⊢
  by_cases hlt : max a.start b.start < min a.«end» b.«end»
  · rw [if_pos hlt] at h ⊢
    rw [decide_eq_true_eq] at h
    rw [decide_eq_true_eq]
    rcases h with h | h
    · exact Or.inl (le_trans h12 h)
    · exact Or.inr (le_trans h12 h)
  · rw [if_neg hlt] at h
    cases h

/-- Witness for C10: `(chr1,1,10,2)` and `(chr1,1,7,2)` overlap at `7/10`,
hence also at the lower threshold `1/2`. -/
theorem overlap_antitone_witness :
    (1 / 2 : ℚ) ≤ 7 / 10 ∧
      overlap ⟨"chr1", 1, 10, 2⟩ ⟨"chr1", 1, 7, 2⟩ (1 / 2) = true :=
  ⟨by norm_num,
   overlap_antitone ⟨"chr1", 1, 10, 2⟩ ⟨"chr1", 1, 7, 2⟩ (1 / 2) (7 / 10)
     (by norm_num) (by norm_num [overlap])⟩

/-- A single-base CNV (`start = end`) fails the strict intersection test
against every CNV, in both argument orders. -/
theorem single_base_no_overlap (a b : CNV) (t : ℚ) (hab : a.start = a.«end») :
    overlap a b t = false ∧ overlap b a t = false := by
  constructor
  · simp only [overlap]
    rw [if_neg]
    rw [not_lt]
    calc min a.«end» b.«end» ≤ a.«end» := min_le_left _ _
      _ = a.start := hab.symm
      _ ≤ max a.start b.start := le_max_left _ _
  · simp only [overlap]
    rw [if_neg]
    rw [not_lt]
    calc min b.«end» a.«end» ≤ a.«end» := min_le_right _ _
      _ = a.start := hab.symm
      _ ≤ max b.start a.start := le_max_right _ _

/-! ### The merger -/

/-- C5: merging a non-empty cluster yields a CNV whose start is the minimum of
the members' starts and whose end is the maximum of the members' ends, and
merging a singleton cluster returns its CNV unchanged. -/
theorem merge_min_start_max_end (cnvs : List CNV) (hne : cnvs ≠ []) :
    (∃ m, merge_cnvs cnvs = some m ∧
       m.start ∈ cnvs.map CNV.start ∧ (∀ c ∈ cnvs, m.start ≤ c.start) ∧
       m.«end» ∈ cnvs.map (fun c => c.«end») ∧ (∀ c ∈ cnvs, c.«end» ≤ m.«end»)) ∧
    (∀ c : CNV, merge_cnvs [c] = some c) := by
  refine ⟨?_, fun c => rfl⟩
  match cnvs with
  | [] => exact absurd rfl hne
  | c :: rest =>
    refine ⟨_, rfl, ?_, ?_, ?_, ?_⟩
    · rcases foldl_min_mem (rest.map CNV.start) c.start with h | h
      · rw [List.map_cons, h]
        exact List.mem_cons_self _ _
      · rw [List.map_cons]
        exact List.mem_cons_of_mem _ h
    · intro c' hc'
      rcases List.mem_cons.mp hc' with rfl | h
      · exact foldl_min_le_init _ _
      · exact foldl_min_le_mem (List.mem_map_of_mem CNV.start h) _
    · rcases foldl_max_mem (rest.map fun x => x.«end») c.«end» with h | h
      · rw [List.map_cons, h]
        exact List.mem_cons_self _ _
      · rw [List.map_cons]
        exact List.mem_cons_of_mem _ h
    · intro c' hc'
      rcases List.mem_cons.mp hc' with rfl | h
      · exact init_le_foldl_max _ _
      · exact mem_le_foldl_max (List.mem_map_of_mem (fun x => x.«end») h) _

/-- Witness for C5: merging the singleton cluster `[(chr1,1,10,2)]`. -/
theorem merge_min_start_max_end_witness :
    merge_cnvs [⟨"chr1", 1, 10, 2⟩] = some ⟨"chr1", 1, 10, 2⟩ :=
  (merge_min_start_max_end [⟨"chr1", 1, 10, 2⟩] (by simp)).2 ⟨"chr1", 1, 10, 2⟩

/-- C8: the merged CNV spans every member of the cluster, and if every member
is well-formed (`start ≤ end`) then so is the merged CNV. -/
theorem merge_spans_members (cnvs : List CNV) (m : CNV)
    (hm : merge_cnvs cnvs = some m) :
    (∀ c ∈ cnvs, m.start ≤ c.start ∧ c.«end» ≤ m.«end») ∧
    ((∀ c ∈ cnvs, c.start ≤ c.«end») → m.start ≤ m.«end») := by
  match cnvs with
  | [] => cases hm
  | c :: rest =>
    simp only [merge_cnvs, Option.some.injEq] at hm
    subst hm
    have hspan : ∀ c' ∈ c :: rest,
        (rest.map CNV.start).foldl min c.start ≤ c'.start ∧
          c'.«end» ≤ (rest.map fun x => x.«end»).foldl max c.«end» := by
      intro c' hc'
      rcases List.mem_cons.mp hc' with rfl | h
      · exact ⟨foldl_min_le_init _ _, init_le_foldl_max _ _⟩
      · exact ⟨foldl_min_le_mem (List.mem_map_of_mem CNV.start h) _,
               mem_le_foldl_max (List.mem_map_of_mem (fun x => x.«end») h) _⟩
    refine ⟨hspan, fun hwf => ?_⟩
    have hc := hspan c (List.mem_cons_self c rest)
    exact le_trans hc.1 (le_trans (hwf c (List.mem_cons_self c rest)) hc.2)

/-- Witness for C8 at the two-member cluster
`[(chr1,5,15,2), (chr1,1,10,2)]`. -/
theorem merge_spans_members_witness :
    (∀ c ∈ ([⟨"chr1", 5, 15, 2⟩, ⟨"chr1", 1, 10, 2⟩] : List CNV),
       (⟨"chr1", 1, 15, 2⟩ : CNV).start ≤ c.start ∧
         c.«end» ≤ (⟨"chr1", 1, 15, 2⟩ : CNV).«end») ∧
    ((∀ c ∈ ([⟨"chr1", 5, 15, 2⟩, ⟨"chr1", 1, 10, 2⟩] : List CNV),
       c.start ≤ c.«end») →
      (⟨"chr1", 1, 15, 2⟩ : CNV).start ≤ (⟨"chr1", 1, 15, 2⟩ : CNV).«end») :=
  merge_spans_members [⟨"chr1", 5, 15, 2⟩, ⟨"chr1", 1, 10, 2⟩] ⟨"chr1", 1, 15, 2⟩ rfl

/-! ### The clustering engine: invariants of the component fold -/

theorem adj_symm (f : ℚ) (u v : CNV) : Adj f u v = Adj f v u := by
  simp only [Adj]
  exact Bool.or_comm _ _

theorem step_symm {f : ℚ} {l : List CNV} : Symmetric (Step f l) := by
  intro u v h
  refine ⟨h.2.1, h.1, ?_⟩
  rw [adj_symm]
  exact h.2.2

theorem connected_symm {f : ℚ} {l : List CNV} {u v : CNV}
    (h : Connected f l u v) : Connected f l v u :=
  Relation.ReflTransGen.symmetric step_symm h

theorem step_copynumber {f : ℚ} {l : List CNV} {u v : CNV} (h : Step f l u v) :
    u.copynumber = v.copynumber := by
  have hadj := h.2.2
  simp only [Adj, Bool.or_eq_true, edge, Bool.and_eq_true, beq_iff_eq] at hadj
  rcases hadj with ⟨h1, _⟩ | ⟨h1, _⟩
  · exact h1
  · exact h1.symm

theorem connected_copynumber {f : ℚ} {l : List CNV} {u v : CNV}
    (h : Connected f l u v) : u.copynumber = v.copynumber := by
  induction h with
  | refl => rfl
  | tail _ hstep ih => exact ih.trans (step_copynumber hstep)

/-- The invariant of the incremental component computation: after processing
the CNVs in `processed` (all drawn from the bucket `full`), the cluster list
`cs` partitions `processed`, every cluster is non-empty, members of one
cluster are connected in the overlap graph on `full`, and members of distinct
clusters are never adjacent. -/
structure ClInv (f : ℚ) (full processed : List CNV) (cs : List (List CNV)) : Prop where
  perm : cs.flatten.Perm processed
  sub : ∀ cl ∈ cs, ∀ u ∈ cl, u ∈ full
  nonempty : ∀ cl ∈ cs, cl ≠ []
  conn : ∀ cl ∈ cs, ∀ u ∈ cl, ∀ v ∈ cl, Connected f full u v
  sep : cs.Pairwise fun c1 c2 => ∀ u ∈ c1, ∀ v ∈ c2, Adj f u v = false

theorem sep_symmetric (f : ℚ) :
    Symmetric fun c1 c2 : List CNV => ∀ u ∈ c1, ∀ v ∈ c2, Adj f u v = false := by
  intro c1 c2 h u hu v hv
  rw [adj_symm]
  exact h v hv u hu

theorem clinv_addNode {f : ℚ} {full processed : List CNV} {cs : List (List CNV)}
    {v : CNV} (hv : v ∈ full) (inv : ClInv f full processed cs) :
    ClInv f full (v :: processed) (addNode f v cs) := by
  set p := fun cl : List CNV => cl.any fun u => Adj f v u with hp
  have hlinked : ∀ cl ∈ cs.filter p, cl ∈ cs ∧ ∃ u ∈ cl, Adj f v u = true := by
    intro cl hcl
    have h := List.mem_filter.mp hcl
    refine ⟨h.1, ?_⟩
    have := h.2
    rw [hp, List.any_eq_true] at this
    rcases this with ⟨u, hu, hadj⟩
    exact ⟨u, hu, hadj⟩
  have hrest : ∀ cl ∈ cs.filter (fun cl => !p cl),
      cl ∈ cs ∧ ∀ u ∈ cl, Adj f v u = false := by
    intro cl hcl
    have h := List.mem_filter.mp hcl
    refine ⟨h.1, ?_⟩
    have h2 := h.2
    rw [Bool.not_eq_eq_eq_not, Bool.not_true, hp, List.any_eq_false] at h2
    intro u hu
    exact Bool.eq_false_iff.mpr (h2 u hu)
  -- every member of a linked cluster is connected to `v` in the full graph
  have hconnv : ∀ cl ∈ cs.filter p, ∀ u ∈ cl, Connected f full v u := by
    intro cl hcl u hu
    rcases hlinked cl hcl with ⟨hclcs, u0, hu0, hadj⟩
    have hstep : Step f full v u0 := ⟨hv, inv.sub cl hclcs u0 hu0, hadj⟩
    exact Relation.ReflTransGen.trans (Relation.ReflTransGen.single hstep)
      (inv.conn cl hclcs u0 hu0 u hu)
  have hflat : ∀ u ∈ (cs.filter p).flatten, Connected f full v u := by
    intro u hu
    rcases List.mem_flatten.mp hu with ⟨cl, hcl, hu⟩
    exact hconnv cl hcl u hu
  constructor
  · show (((v :: (cs.filter p).flatten) :: cs.filter (fun cl => !p cl)).flatten).Perm
      (v :: processed)
    rw [List.flatten_cons, List.cons_append, ← List.flatten_append]
    exact ((List.filter_append_perm p cs).flatten.trans inv.perm).cons v
  · intro cl hcl u hu
    rcases List.mem_cons.mp hcl with rfl | hcl
    · rcases List.mem_cons.mp hu with rfl | hu
      · exact hv
      · rcases List.mem_flatten.mp hu with ⟨cl', hcl', hu'⟩
        exact inv.sub cl' (hlinked cl' hcl').1 u hu'
    · exact inv.sub cl (hrest cl hcl).1 u hu
  · intro cl hcl
    rcases List.mem_cons.mp hcl with rfl | hcl
    · exact List.cons_ne_nil v _
    · exact inv.nonempty cl (hrest cl hcl).1
  · intro cl hcl u hu w hw
    rcases List.mem_cons.mp hcl with rfl | hcl
    · have key : ∀ x ∈ v :: (cs.filter p).flatten, Connected f full v x := by
        intro x hx
        rcases List.mem_cons.mp hx with rfl | hx
        · exact Relation.ReflTransGen.refl
        · exact hflat x hx
      exact Relation.ReflTransGen.trans (connected_symm (key u hu)) (key w hw)
    · exact inv.conn cl (hrest cl hcl).1 u hu w hw
  · constructor
    · intro cl2 hcl2 u hu w hw
      rcases List.mem_cons.mp hu with rfl | hu
      · exact (hrest cl2 hcl2).2 w hw
      · rcases List.mem_flatten.mp hu with ⟨cl1, hcl1, hu1⟩
        have hne : cl1 ≠ cl2 := by
          intro heq
          have h1 := (List.mem_filter.mp hcl1).2
          have h2 := (List.mem_filter.mp hcl2).2
          rw [heq] at h1
          rw [h1] at h2
          cases h2
        exact (List.Pairwise.forall (sep_symmetric f) inv.sep
          (List.mem_filter.mp hcl1).1 (List.mem_filter.mp hcl2).1 hne) u hu1 w hw
    · exact List.Pairwise.sublist (List.filter_sublist cs) inv.sep

theorem clinv_foldl {f : ℚ} {full : List CNV} :
    ∀ (l : List CNV) (processed : List CNV) (cs : List (List CNV)),
      (∀ u ∈ l, u ∈ full) → ClInv f full processed cs →
      ClInv f full (l.reverse ++ processed)
        (l.foldl (fun cs v => addNode f v cs) cs) := by
  intro l
  induction l with
  | nil => intro processed cs _ inv; exact inv
  | cons v vs ih =>
    intro processed cs hl inv
    have hv : v ∈ full := hl v (List.mem_cons_self v vs)
    have step := clinv_addNode hv inv
    have := ih (v :: processed) (addNode f v cs)
      (fun u hu => hl u (List.mem_cons_of_mem v hu)) step
    rw [List.reverse_cons, List.append_assoc]
    exact this

/-- The invariant holds of the finished component computation. -/
theorem components_clinv (f : ℚ) (cnvs : List CNV) :
    ClInv f cnvs cnvs (components f cnvs) := by
  have base : ClInv f cnvs [] ([] : List (List CNV)) := by
    constructor
    · exact List.Perm.refl _
    · intro cl hcl; cases hcl
    · intro cl hcl; cases hcl
    · intro cl hcl; cases hcl
    · exact List.Pairwise.nil
  have h := clinv_foldl cnvs [] [] (fun u hu => hu) base
  rw [List.append_nil] at h
  refine ⟨h.perm.trans (List.reverse_perm cnvs), h.sub, h.nonempty, h.conn, h.sep⟩

/-! ### Characterization of the computed components -/

theorem mem_components_flatten (f : ℚ) (cnvs : List CNV) (u : CNV) :
    u ∈ (components f cnvs).flatten ↔ u ∈ cnvs :=
  (components_clinv f cnvs).perm.mem_iff

theorem connected_mem_same_cluster {f : ℚ} {cnvs : List CNV} {u v : CNV}
    (hu : u ∈ cnvs) (h : Connected f cnvs u v) :
    ∃ cl ∈ components f cnvs, u ∈ cl ∧ v ∈ cl := by
  have inv := components_clinv f cnvs
  induction h with
  | refl =>
    rcases List.mem_flatten.mp ((mem_components_flatten f cnvs u).mpr hu) with
      ⟨cl, hcl, hucl⟩
    exact ⟨cl, hcl, hucl, hucl⟩
  | tail hpath hstep ih =>
    rcases ih with ⟨cl, hcl, hucl, hwcl⟩
    obtain ⟨hwmem, hxmem, hadj⟩ := hstep
    rcases List.mem_flatten.mp ((mem_components_flatten f cnvs _).mpr hxmem) with
      ⟨clx, hclx, hxclx⟩
    by_cases heq : cl = clx
    · exact ⟨cl, hcl, hucl, heq ▸ hxclx⟩
    · exfalso
      have hsep := List.Pairwise.forall (sep_symmetric f) inv.sep hcl hclx heq
      have hfalse := hsep _ hwcl _ hxclx
      rw [hadj] at hfalse
      cases hfalse

theorem countP_flatten_nodup (cs : List (List CNV)) (v : CNV)
    (hnd : cs.flatten.Nodup) (hv : v ∈ cs.flatten) :
    cs.countP (fun cl => decide (v ∈ cl)) = 1 := by
  induction cs with
  | nil => cases hv
  | cons c rest ih =>
    rw [List.flatten_cons] at hnd hv
    rw [List.countP_cons]
    rcases List.nodup_append.mp hnd with ⟨_, hndr, hdisj⟩
    rcases List.mem_append.mp hv with hvc | hvr
    · have hnr : v ∉ rest.flatten := fun hmem => hdisj hvc hmem
      have hzero : rest.countP (fun cl => decide (v ∈ cl)) = 0 := by
        rw [List.countP_eq_zero]
        intro cl hcl
        simp only [decide_eq_true_eq]
        intro hvcl
        exact hnr (List.mem_flatten_of_mem hcl hvcl)
      simp [hzero, hvc]
    · have hvnc : v ∉ c := fun hmem => hdisj hmem hvr
      simp [ih hndr hvr, hvnc]

theorem components_flatten_nodup {f : ℚ} {cnvs : List CNV} (hnd : cnvs.Nodup) :
    ((components f cnvs).flatten).Nodup :=
  (components_clinv f cnvs).perm.symm.nodup hnd

theorem isolated_connected_eq {f : ℚ} {cnvs : List CNV} {v : CNV}
    (hiso : ∀ u ∈ cnvs, u ≠ v → Adj f v u = false) :
    ∀ u, Connected f cnvs v u → u = v := by
  intro u h
  induction h with
  | refl => rfl
  | @tail w x hpath hstep ih =>
    by_cases hu : x = v
    · exact hu
    · exfalso
      have hfalse := hiso x hstep.2.1 hu
      have hadj : Adj f v x = true := by
        rw [← ih]
        exact hstep.2.2
      rw [hadj] at hfalse
      cases hfalse

theorem all_eq_singleton {cl : List CNV} {v : CNV} (hnd : cl.Nodup)
    (hne : cl ≠ []) (hall : ∀ u ∈ cl, u = v) : cl = [v] := by
  match cl with
  | [] => exact absurd rfl hne
  | [c] => rw [hall c (List.mem_cons_self c [])]
  | c :: w :: ws =>
    exfalso
    have hc : c = v := hall c (List.mem_cons_self _ _)
    have hw : w = v := hall w (List.mem_cons_of_mem c (List.mem_cons_self _ _))
    have hnotin : c ∉ w :: ws := (List.nodup_cons.mp hnd).1
    apply hnotin
    rw [hc.trans hw.symm]
    exact List.mem_cons_self w ws

theorem singleton_component {f : ℚ} {cnvs : List CNV} {v : CNV}
    (hnd : cnvs.Nodup) (hv : v ∈ cnvs)
    (hiso : ∀ u ∈ cnvs, u ≠ v → Adj f v u = false) :
    [v] ∈ components f cnvs := by
  have inv := components_clinv f cnvs
  rcases List.mem_flatten.mp ((mem_components_flatten f cnvs v).mpr hv) with
    ⟨cl, hcl, hvcl⟩
  have hclnd : cl.Nodup :=
    List.Nodup.sublist (List.sublist_flatten_of_mem hcl) (components_flatten_nodup hnd)
  have hall : ∀ u ∈ cl, u = v := fun u hu =>
    isolated_connected_eq hiso u (inv.conn cl hcl v hvcl u hu)
  have heq := all_eq_singleton hclnd (inv.nonempty cl hcl) hall
  rw [← heq]
  exact hcl

/-- C1: for every bucket (a duplicate-free list of CNVs) and every threshold,
the clustering engine emits exactly the connected components of the overlap
graph: members of the bucket share an emitted cluster iff a path of
equal-copy-number overlap edges connects them, every cluster member comes
from the bucket, every bucket CNV lies in exactly one cluster, an edgeless
CNV forms a singleton cluster, and the `len > 0` emission guard discards
nothing. -/
theorem clustering_connected_components (f : ℚ) (cnvs : List CNV)
    (hnd : cnvs.Nodup) :
    (∀ u ∈ cnvs, ∀ v ∈ cnvs,
      ((∃ cl ∈ components f cnvs, u ∈ cl ∧ v ∈ cl) ↔ Connected f cnvs u v)) ∧
    (∀ cl ∈ components f cnvs, ∀ u ∈ cl, u ∈ cnvs) ∧
    (∀ v ∈ cnvs, (components f cnvs).countP (fun cl => decide (v ∈ cl)) = 1) ∧
    (∀ v ∈ cnvs, (∀ u ∈ cnvs, u ≠ v → Adj f v u = false) →
      [v] ∈ components f cnvs) ∧
    ((components f cnvs).filter fun cl => decide (0 < cl.length)) =
      components f cnvs := by
  have inv := components_clinv f cnvs
  refine ⟨?_, inv.sub, ?_, ?_, ?_⟩
  · intro u hu v hv
    constructor
    · rintro ⟨cl, hcl, hucl, hvcl⟩
      exact inv.conn cl hcl u hucl v hvcl
    · exact connected_mem_same_cluster hu
  · intro v hv
    exact countP_flatten_nodup _ v (components_flatten_nodup hnd)
      ((mem_components_flatten f cnvs v).mpr hv)
  · intro v hv hiso
    exact singleton_component hnd hv hiso
  · apply List.filter_eq_self.mpr
    intro cl hcl
    exact decide_eq_true (List.length_pos.mpr (inv.nonempty cl hcl))

/-- Witness for C1 on the bucket `[(chr1,1,10,2), (chr1,5,15,2)]` at
threshold `2/5`: the first CNV lies in exactly one cluster. -/
theorem clustering_connected_components_witness :
    (components (2 / 5) [⟨"chr1", 1, 10, 2⟩, ⟨"chr1", 5, 15, 2⟩]).countP
      (fun cl => decide ((⟨"chr1", 1, 10, 2⟩ : CNV) ∈ cl)) = 1 :=
  (clustering_connected_components (2 / 5)
      [⟨"chr1", 1, 10, 2⟩, ⟨"chr1", 5, 15, 2⟩] (by decide)).2.2.1
    ⟨"chr1", 1, 10, 2⟩ (by decide)

/-- C4: every cluster emitted by the clustering engine has uniform copy
number across its members (two CNVs with different copy numbers never share a
cluster), so the merged CNV's copy number, taken from an arbitrary member,
agrees with every member. -/
theorem clusters_uniform_copynumber (f : ℚ) (cnvs : List CNV) :
    (∀ cl ∈ components f cnvs, ∀ u ∈ cl, ∀ v ∈ cl,
      u.copynumber = v.copynumber) ∧
    (∀ cl ∈ components f cnvs, ∀ m, merge_cnvs cl = some m →
      ∀ u ∈ cl, m.copynumber = u.copynumber) := by
  have inv := components_clinv f cnvs
  have huni : ∀ cl ∈ components f cnvs, ∀ u ∈ cl, ∀ v ∈ cl,
      u.copynumber = v.copynumber := by
    intro cl hcl u hu v hv
    exact connected_copynumber (inv.conn cl hcl u hu v hv)
  refine ⟨huni, ?_⟩
  intro cl hcl m hm u hu
  match cl, hcl, hm, hu with
  | c :: rest, hcl, hm, hu =>
    simp only [merge_cnvs, Option.some.injEq] at hm
    subst hm
    exact huni _ hcl c (List.mem_cons_self _ _) u hu

/-- Witness for C4 on the two-member cluster formed by
`[(chr1,1,10,2), (chr1,5,15,2)]` at threshold `2/5`. -/
theorem clusters_uniform_copynumber_witness :
    (⟨"chr1", 1, 10, 2⟩ : CNV).copynumber =
      (⟨"chr1", 5, 15, 2⟩ : CNV).copynumber := by
  have h1 : overlap ⟨"chr1", 5, 15, 2⟩ ⟨"chr1", 1, 10, 2⟩ (2 / 5) = true := by
    norm_num [overlap]
  have h2 : overlap ⟨"chr1", 1, 10, 2⟩ ⟨"chr1", 5, 15, 2⟩ (2 / 5) = true := by
    norm_num [overlap]
  exact (clusters_uniform_copynumber (2 / 5)
      [⟨"chr1", 1, 10, 2⟩, ⟨"chr1", 5, 15, 2⟩]).1
    [⟨"chr1", 5, 15, 2⟩, ⟨"chr1", 1, 10, 2⟩]
    (by simp [components, addNode, Adj, edge, h1, h2])
    ⟨"chr1", 1, 10, 2⟩ (by simp)
    ⟨"chr1", 5, 15, 2⟩ (by simp)

/-- C6: merging an empty cluster hits the fatal assertion (modelled as
`none`), the clustering engine never emits an empty cluster, and hence every
cluster the pipeline hands to the merger is non-empty and merges
successfully. -/
theorem merge_empty_fatal_unreachable :
    merge_cnvs ([] : List CNV) = none ∧
    (∀ (f : ℚ) (cnvs : List CNV), ∀ cl ∈ components f cnvs, cl ≠ []) ∧
    (∀ (f : ℚ) (cnvs : List CNV), ∀ pr ∈ group_bucket f cnvs,
      pr.2 ≠ [] ∧ ∃ m, pr.1 = some m) := by
  refine ⟨rfl, ?_, ?_⟩
  · intro f cnvs cl hcl
    exact (components_clinv f cnvs).nonempty cl hcl
  · intro f cnvs pr hpr
    simp only [group_bucket, List.mem_map] at hpr
    rcases hpr with ⟨cl, hclf, rfl⟩
    have hcl := (List.mem_filter.mp hclf).2
    rw [decide_eq_true_eq] at hcl
    match cl, hcl with
    | c :: rest, _ =>
      exact ⟨List.cons_ne_nil _ _, ⟨_, rfl⟩⟩

/-- Witness for C6: the bucket `[(chr1,1,10,2)]` emits the pair
`(some (chr1,1,10,2), [(chr1,1,10,2)])`, which is non-empty and merged. -/
theorem merge_empty_fatal_unreachable_witness :
    ((some (⟨"chr1", 1, 10, 2⟩ : CNV), [(⟨"chr1", 1, 10, 2⟩ : CNV)]) :
        Option CNV × List CNV).2 ≠ [] ∧
    ∃ m, ((some (⟨"chr1", 1, 10, 2⟩ : CNV), [(⟨"chr1", 1, 10, 2⟩ : CNV)]) :
        Option CNV × List CNV).1 = some m :=
  merge_empty_fatal_unreachable.2.2 (1 / 2) [⟨"chr1", 1, 10, 2⟩]
    (some ⟨"chr1", 1, 10, 2⟩, [⟨"chr1", 1, 10, 2⟩])
    (by simp [group_bucket, components, addNode, merge_cnvs])

/-- C9: a single-base CNV (`start = end`) overlaps nothing in either
argument order, so in any duplicate-free bucket containing it, it forms a
singleton cluster and is emitted unchanged by the merger — even when it lies
inside another CNV of the same copy number. -/
theorem single_base_singleton (a : CNV) (hsb : a.start = a.«end») :
    (∀ (b : CNV) (t : ℚ), overlap a b t = false ∧ overlap b a t = false) ∧
    (∀ (f : ℚ) (cnvs : List CNV), cnvs.Nodup → a ∈ cnvs →
      [a] ∈ components f cnvs ∧ merge_cnvs [a] = some a ∧
        (some a, [a]) ∈ group_bucket f cnvs) := by
  refine ⟨fun b t => single_base_no_overlap a b t hsb, ?_⟩
  intro f cnvs hnd ha
  have hiso : ∀ u ∈ cnvs, u ≠ a → Adj f a u = false := by
    intro u hu _
    have h1 := (single_base_no_overlap a u f hsb).1
    have h2 := (single_base_no_overlap a u f hsb).2
    simp [Adj, edge, h1, h2]
  have h1 : [a] ∈ components f cnvs := singleton_component hnd ha hiso
  refine ⟨h1, rfl, ?_⟩
  have h2 : [a] ∈ (components f cnvs).filter (fun cl => decide (0 < cl.length)) :=
    List.mem_filter.mpr ⟨h1, by simp⟩
  exact List.mem_map_of_mem (fun cl => (merge_cnvs cl, cl)) h2

/-- Witness for C9: the single-base CNV `(chr1,5,5,2)` inside
`(chr1,1,10,2)` of the same copy number still forms a singleton cluster. -/
theorem single_base_singleton_witness :
    [(⟨"chr1", 5, 5, 2⟩ : CNV)] ∈
        components (1 / 2) [⟨"chr1", 1, 10, 2⟩, ⟨"chr1", 5, 5, 2⟩] ∧
      merge_cnvs [(⟨"chr1", 5, 5, 2⟩ : CNV)] = some ⟨"chr1", 5, 5, 2⟩ ∧
      (some (⟨"chr1", 5, 5, 2⟩ : CNV), [(⟨"chr1", 5, 5, 2⟩ : CNV)]) ∈
        group_bucket (1 / 2) [⟨"chr1", 1, 10, 2⟩, ⟨"chr1", 5, 5, 2⟩] :=
  (single_base_singleton ⟨"chr1", 5, 5, 2⟩ rfl).2 (1 / 2)
    [⟨"chr1", 1, 10, 2⟩, ⟨"chr1", 5, 5, 2⟩] (by decide) (by decide)

/-! ### The spec's transitive-clustering example -/

/-- C3 counterexample: at the default threshold `7/10` the spec's example
CNVs A=(1,10), B=(5,15), C=(12,20) (all copy number 2) do not overlap
pairwise at all — the A–B intersection covers 6/10 and 6/11 of the two
lengths and the B–C intersection 4/11 and 4/9, all below 0.7 — so clustering
yields three singleton clusters, not one cluster containing all three. -/
theorem transitive_example_counterexample :
    overlap ⟨"chr1", 1, 10, 2⟩ ⟨"chr1", 5, 15, 2⟩ (7 / 10) = false ∧
    overlap ⟨"chr1", 5, 15, 2⟩ ⟨"chr1", 12, 20, 2⟩ (7 / 10) = false ∧
    components (7 / 10) [⟨"chr1", 1, 10, 2⟩, ⟨"chr1", 5, 15, 2⟩, ⟨"chr1", 12, 20, 2⟩] =
      [[⟨"chr1", 12, 20, 2⟩], [⟨"chr1", 5, 15, 2⟩], [⟨"chr1", 1, 10, 2⟩]] ∧
    ¬ ∃ cl ∈ components (7 / 10)
        [⟨"chr1", 1, 10, 2⟩, ⟨"chr1", 5, 15, 2⟩, ⟨"chr1", 12, 20, 2⟩],
        (⟨"chr1", 1, 10, 2⟩ : CNV) ∈ cl ∧ (⟨"chr1", 5, 15, 2⟩ : CNV) ∈ cl := by
  have h1 : overlap ⟨"chr1", 5, 15, 2⟩ ⟨"chr1", 1, 10, 2⟩ (7 / 10) = false := by
    norm_num [overlap]
  have h2 : overlap ⟨"chr1", 1, 10, 2⟩ ⟨"chr1", 5, 15, 2⟩ (7 / 10) = false := by
    norm_num [overlap]
  have h3 : overlap ⟨"chr1", 12, 20, 2⟩ ⟨"chr1", 5, 15, 2⟩ (7 / 10) = false := by
    norm_num [overlap]
  have h4 : overlap ⟨"chr1", 5, 15, 2⟩ ⟨"chr1", 12, 20, 2⟩ (7 / 10) = false := by
    norm_num [overlap]
  have h5 : overlap ⟨"chr1", 12, 20, 2⟩ ⟨"chr1", 1, 10, 2⟩ (7 / 10) = false := by
    norm_num [overlap]
  have h6 : overlap ⟨"chr1", 1, 10, 2⟩ ⟨"chr1", 12, 20, 2⟩ (7 / 10) = false := by
    norm_num [overlap]
  have hcomp : components (7 / 10)
      [⟨"chr1", 1, 10, 2⟩, ⟨"chr1", 5, 15, 2⟩, ⟨"chr1", 12, 20, 2⟩] =
      [[⟨"chr1", 12, 20, 2⟩], [⟨"chr1", 5, 15, 2⟩], [⟨"chr1", 1, 10, 2⟩]] := by
    simp [components, addNode, Adj, edge, h1, h2, h3, h4, h5, h6]
  refine ⟨h2, h4, hcomp, ?_⟩
  rw [hcomp]
  decide

/-- C3 as amended: the transitive-clustering behaviour the spec describes
does hold for A=(1,10), B=(5,15), C=(12,20) (all copy number 2), but at
threshold `2/5` rather than the default `7/10`: A–B and B–C overlap, A–C do
not overlap directly, yet all three CNVs form one cluster which merges to
`(chrom, 1, 20, 2)`. -/
theorem transitive_example_amended (chrom : String) :
    ∃ cl,
      components (2 / 5) [⟨chrom, 1, 10, 2⟩, ⟨chrom, 5, 15, 2⟩, ⟨chrom, 12, 20, 2⟩] =
        [cl] ∧
      (⟨chrom, 1, 10, 2⟩ : CNV) ∈ cl ∧ (⟨chrom, 5, 15, 2⟩ : CNV) ∈ cl ∧
      (⟨chrom, 12, 20, 2⟩ : CNV) ∈ cl ∧
      merge_cnvs cl = some ⟨chrom, 1, 20, 2⟩ ∧
      overlap ⟨chrom, 1, 10, 2⟩ ⟨chrom, 5, 15, 2⟩ (2 / 5) = true ∧
      overlap ⟨chrom, 5, 15, 2⟩ ⟨chrom, 12, 20, 2⟩ (2 / 5) = true ∧
      overlap ⟨chrom, 1, 10, 2⟩ ⟨chrom, 12, 20, 2⟩ (2 / 5) = false := by
  have h1 : overlap ⟨chrom, 5, 15, 2⟩ ⟨chrom, 1, 10, 2⟩ (2 / 5) = true := by
    norm_num [overlap]
  have h2 : overlap ⟨chrom, 1, 10, 2⟩ ⟨chrom, 5, 15, 2⟩ (2 / 5) = true := by
    norm_num [overlap]
  have h3 : overlap ⟨chrom, 12, 20, 2⟩ ⟨chrom, 5, 15, 2⟩ (2 / 5) = true := by
    norm_num [overlap]
  have h4 : overlap ⟨chrom, 5, 15, 2⟩ ⟨chrom, 12, 20, 2⟩ (2 / 5) = true := by
    norm_num [overlap]
  refine ⟨[⟨chrom, 12, 20, 2⟩, ⟨chrom, 5, 15, 2⟩, ⟨chrom, 1, 10, 2⟩], ?_, ?_, ?_, ?_, rfl,
    h2, h4, by norm_num [overlap]⟩
  · simp [components, addNode, Adj, edge, h1, h2, h3, h4]
  · simp
  · simp
  · simp

